import Mathlib

/-!
A verification development for the terminal animation player of the
bitpet CLI (`src/ui.rs`).  Rust strings are embedded as `List Char`
(a colour tag is likewise a `List Char`); machine integers are embedded
as `Nat`/`Int` with explicit truncation where the source can overflow;
fallible or panicking operations return `Option` (with `none` marking a
panic) or `Except`.
-/

namespace BitPet

/-- Byte length of a string (`str::len`): Rust measures `&str` lengths
in UTF-8 bytes, not characters. -/
def utf8Len (s : List Char) : Nat := (s.map Char.utf8Size).sum

/-! ## Frame compositor (`pad_image_and_colours`, src/ui.rs:139-187).
All row lengths (`line.len()`, src/ui.rs:146,154,171) are UTF-8 byte
lengths. -/

/-- `lines.iter().map(|line| line.len()).max().unwrap_or(0)`
(src/ui.rs:146): maximum byte length. -/
def maxRowLen (lines : List (List Char)) : Nat :=
  (lines.map utf8Len).foldr Nat.max 0

/-- `Vec::resize(n, d)`: truncate to `n` or extend with copies of `d`. -/
def vecResize {α : Type} (l : List α) (n : Nat) (d : α) : List α :=
  l.take n ++ List.replicate (n - l.length) d

/-- `let pad = (max_width - line_len) / 2` (src/ui.rs:154); `w` and
`len` are byte lengths. -/
def leftPad (w len : Nat) : Nat := (w - len) / 2

/-- One text row of the padded face: `pad` copies of the fill character,
the row, then `max_width - line_len - pad` copies on the right
(src/ui.rs:153-166); the pad counts come from byte lengths while
`repeat` appends whole characters. -/
def padFaceRow (fill : Char) (w : Nat) (line : List Char) : List Char :=
  List.replicate (leftPad w (utf8Len line)) fill ++ line ++
    List.replicate (w - utf8Len line - leftPad w (utf8Len line)) fill

/-- One colour row: `pad` default tags, then for each `j < lineLen`
(the text row's byte length, src/ui.rs:171) the supplied tag (default
when absent), then `resize` to `w` (src/ui.rs:168-178). -/
def padColourRow (dflt : List Char) (w lineLen : Nat)
    (crow : List (List Char)) : List (List Char) :=
  vecResize
    (List.replicate (leftPad w lineLen) dflt ++
      (List.range lineLen).map (fun j => crow.getD j dflt))
    w dflt

/-- `pad_image_and_colours` (src/ui.rs:139-187).  The image is embedded
as its list of lines; the `"\n"`-join of the Rust return value is kept
as a list of rows. -/
def pad_image_and_colours (image : List (List Char))
    (colours : List (List (List Char)))
    (padding_char : Option Char) (default_colour : Option (List Char)) :
    List (List Char) × List (List (List Char)) × Nat × Nat :=
  let fill := padding_char.getD ' '
  let dflt := default_colour.getD []
  let w := maxRowLen image
  (image.map (padFaceRow fill w),
   (List.range image.length).map
     (fun i => padColourRow dflt w (utf8Len (image.getD i [])) (colours.getD i [])),
   w, image.length)

/-! ## Glyph colorizer (`hex_to_rgb`, src/ui.rs:32-41, and the styling
branch of `draw_image_starting_at`, src/ui.rs:103-111).

Rust `&str` byte indexing is modelled explicitly: a slice whose end
falls inside a multi-byte character panics, which the model renders as
`none`. -/

/-- Take exactly `n` bytes off the front; `none` when `n` falls inside a
character (the Rust slicing panic). -/
def takeBytes : List Char → Nat → Option (List Char)
  | _, 0 => some []
  | [], _ + 1 => none
  | c :: s, n + 1 =>
    if c.utf8Size ≤ n + 1 then
      (takeBytes s (n + 1 - c.utf8Size)).map (fun t => c :: t)
    else none

/-- Drop exactly `n` bytes off the front; `none` when `n` falls inside a
character. -/
def dropBytes : List Char → Nat → Option (List Char)
  | s, 0 => some s
  | [], _ + 1 => none
  | c :: s, n + 1 =>
    if c.utf8Size ≤ n + 1 then dropBytes s (n + 1 - c.utf8Size) else none

/-- `&s[a..b]`: Rust byte-range slicing of a `&str`; `none` models the
char-boundary panic. -/
def byteSlice (s : List Char) (a b : Nat) : Option (List Char) :=
  (dropBytes s a).bind (fun t => takeBytes t (b - a))

/-- `char::to_digit(16)`. -/
def hexDigitVal (c : Char) : Option Nat :=
  if '0' ≤ c ∧ c ≤ '9' then some (c.toNat - '0'.toNat)
  else if 'a' ≤ c ∧ c ≤ 'f' then some (c.toNat - 'a'.toNat + 10)
  else if 'A' ≤ c ∧ c ≤ 'F' then some (c.toNat - 'A'.toNat + 10)
  else none

/-- `u8::from_str_radix(s, 16)`: an optional leading `+`, then at least
one base-16 digit, accumulated with an overflow check. -/
def from_str_radix_u8 (s : List Char) : Option Nat :=
  let digits := match s with
    | '+' :: rest => rest
    | _ => s
  match digits with
  | [] => none
  | _ =>
    digits.foldl
      (fun acc c => acc.bind (fun v => (hexDigitVal c).bind (fun d =>
        if v * 16 + d < 256 then some (v * 16 + d) else none)))
      (some 0)

/-- `hex_to_rgb` (src/ui.rs:32-41).  Outer `none` = panic (byte slicing
off a char boundary); `some none` = the function returns `None`. -/
def hex_to_rgb (hex : List Char) : Option (Option (Nat × Nat × Nat)) :=
  if hex.head? = some '#' ∧ utf8Len hex = 7 then
    match byteSlice hex 1 3 with
    | none => none
    | some s1 =>
      match from_str_radix_u8 s1 with
      | none => some none
      | some r =>
        match byteSlice hex 3 5 with
        | none => none
        | some s2 =>
          match from_str_radix_u8 s2 with
          | none => some none
          | some g =>
            match byteSlice hex 5 7 with
            | none => none
            | some s3 =>
              match from_str_radix_u8 s3 with
              | none => some none
              | some b => some (some (r, g, b))
  else some none

/-- The per-character styling branch of `draw_image_starting_at`
(src/ui.rs:105-111): empty tag, or a tag `hex_to_rgb` rejects, renders
the plain character; a parsed tag attaches the RGB colour.  Outer
`none` = panic propagated from `hex_to_rgb`. -/
def styled_glyph (ch : Char) (hex : List Char) :
    Option (Char × Option (Nat × Nat × Nat)) :=
  if hex = [] then some (ch, none)
  else
    match hex_to_rgb hex with
    | none => none
    | some (some rgb) => some (ch, some rgb)
    | some none => some (ch, none)

/-! ## Animation model and the per-frame window scan
(src/ui.rs:16-30, 50-89) -/

structure AnimationWindow where
  start_frame_inclusive : Nat
  end_frame_inclusive : Nat
  image : List (List Char)
  colours : List (List (List Char))
  delta_x_from_center : Int
  delta_y_from_center : Int
deriving Repr, DecidableEq

structure Animation where
  windows : List AnimationWindow
  fps : Nat
deriving Repr, DecidableEq

/-- The loop condition at src/ui.rs:58-59. -/
def window_matches (f : Nat) (w : AnimationWindow) : Bool :=
  decide (w.start_frame_inclusive ≤ f) && decide (f ≤ w.end_frame_inclusive)

/-- The linear scan at src/ui.rs:57-67: first window whose frame range
contains `f`. -/
def findWindow (ws : List AnimationWindow) (f : Nat) : Option AnimationWindow :=
  ws.find? (window_matches f)

/-- The contiguous-coverage invariant of §3 of the spec: each window is
non-degenerate and consecutive windows abut exactly. -/
def contiguousB : List AnimationWindow → Bool
  | [] => true
  | [w] => decide (w.start_frame_inclusive ≤ w.end_frame_inclusive)
  | w :: w2 :: rest =>
    decide (w.start_frame_inclusive ≤ w.end_frame_inclusive) &&
    decide (w.end_frame_inclusive + 1 = w2.start_frame_inclusive) &&
    contiguousB (w2 :: rest)

/-- `animation.windows.last().unwrap().end_frame_inclusive as usize + 1`
(src/ui.rs:86); `none` models the `unwrap` panic on empty `windows`. -/
def animation_total_frames (a : Animation) : Option Nat :=
  a.windows.getLast?.map (fun w => w.end_frame_inclusive + 1)

/-! ## Draw-origin computation (src/ui.rs:76-82) -/

/-- `usize as u16` truncating cast. -/
def castU16 (n : Nat) : Nat := n % 65536

/-- `u16::saturating_add_signed` with an `i16` argument: clamps the sum
into `[0, 65535]`. -/
def saturatingAddSigned (a : Nat) (d : Int) : Nat :=
  (min (max ((a : Int) + d) 0) 65535).toNat

/-- `start_x` (src/ui.rs:77-79): `(box_width / 2)
.saturating_sub(max_width as u16 / 2).saturating_add_signed(dx)`.
`u16::saturating_sub` on in-range operands is `Nat` truncated
subtraction. -/
def compute_start_x (box_width frame_width : Nat) (dx : Int) : Nat :=
  saturatingAddSigned (box_width / 2 - castU16 frame_width / 2) dx

/-- `start_y` (src/ui.rs:80-82).  The first addition
`curr_cursor_y + box_height / 2` is plain (non-saturating) `u16`
addition: `none` models its overflow (a panic in debug builds, a wrap in
release builds). -/
def compute_start_y (box_top box_height frame_height : Nat) (dy : Int) :
    Option Nat :=
  if box_top + box_height / 2 ≤ 65535 then
    some (saturatingAddSigned
      (box_top + box_height / 2 - castU16 frame_height / 2) dy)
  else none

def clampU16 (x : Int) : Int := min (max x 0) 65535

/-- Modelled from the spec: `start_x = box_width/2 − frame_width/2 +
delta_x` with each step saturating (never negative, never above the
`u16` range), for comparison with `compute_start_x`. -/
def spec_start_x (box_width frame_width dx : Int) : Int :=
  clampU16 (max (box_width / 2 - frame_width / 2) 0 + dx)

/-- Modelled from the spec: `start_y = box_top + box_height/2 −
frame_height/2 + delta_y` with each step saturating, for comparison with
`compute_start_y`. -/
def spec_start_y (box_top box_height frame_height dy : Int) : Int :=
  clampU16 (max (box_top + box_height / 2 - frame_height / 2) 0 + dy)

/-! ## Drawn-area diffing (src/ui.rs:43-48, 290-313) -/

structure ImageDrawnArea where
  start_x : Nat
  start_y : Nat
  width : Nat
  height : Nat
deriving DecidableEq, Repr

/-- The erase condition at src/ui.rs:295-298: the cell lies outside the
current rectangle. -/
def outsideArea (curr : ImageDrawnArea) (x y : Nat) : Bool :=
  decide (x < curr.start_x) || decide (curr.start_x + curr.width ≤ x) ||
  decide (y < curr.start_y) || decide (curr.start_y + curr.height ≤ y)

/-- Membership of a cell in a drawn rectangle. -/
def inArea (a : ImageDrawnArea) (x y : Nat) : Bool :=
  decide (a.start_x ≤ x) && decide (x < a.start_x + a.width) &&
  decide (a.start_y ≤ y) && decide (y < a.start_y + a.height)

/-- The nested loops at src/ui.rs:293-303 building `areas_to_clear`. -/
def areasToClear (older curr : ImageDrawnArea) : List (Nat × Nat) :=
  ((List.range older.height).map (fun dy => older.start_y + dy)).flatMap
    (fun y =>
      ((List.range older.width).map (fun dx => older.start_x + dx)).filterMap
        (fun x => if outsideArea curr x y then some (x, y) else none))

/-- The guarded erase pass (src/ui.rs:290): on the first drawn frame
`older_image_drawn_area` is `None` and nothing is erased. -/
def eraseStep (older : Option ImageDrawnArea) (curr : ImageDrawnArea) :
    List (Nat × Nat) :=
  match older with
  | none => []
  | some a => areasToClear a curr

/-! ## Playback loop (`print_in_box`, src/ui.rs:203-334) -/

def BOX_WIDTH : Nat := 45
def BOX_HEIGHT : Nat := 10

/-- The undersize test at src/ui.rs:239 (and again at src/ui.rs:323). -/
def undersized (w h : Nat) : Bool :=
  decide (w ≤ BOX_WIDTH) || decide (h ≤ BOX_HEIGHT)

/-- What one loop iteration put on the terminal. -/
structure TickOutput where
  printedError : Bool
  drewBox : Bool
deriving DecidableEq, Repr

/-- One iteration of the frame loop (src/ui.rs:239-316), given the
`is_showing_error` flag and the terminal size in effect for this tick:
returns the updated flag and what was printed. -/
def tick (isShowingError : Bool) (w h : Nat) : Bool × TickOutput :=
  if undersized w h then (true, ⟨!isShowingError, false⟩)
  else (false, ⟨false, true⟩)

/-- The frame loop run over the per-tick terminal sizes, starting from
`is_showing_error = e` (initially `false`, src/ui.rs:224). -/
def runTicks (e : Bool) : List (Nat × Nat) → List TickOutput
  | [] => []
  | s :: rest => (tick e s.1 s.2).2 :: runTicks (tick e s.1 s.2).1 rest

/-- Outcome of the terminal I/O of one tick: all operations succeeded
and the size in effect was `(w, h)`, or some operation failed with `e`. -/
inductive TickRes where
  | ok (w h : Nat)
  | fail (e : Nat)
deriving DecidableEq, Repr

/-- Cursor-related terminal commands the loop issues. -/
inductive TermEvent where
  | hideCursor
  | rendered (o : TickOutput)
  | showCursor
deriving DecidableEq, Repr

/-- The frame loop with fallible I/O: every `?` inside the loop body
propagates the first failure immediately (src/ui.rs:226-320). -/
def runLoop (e : Bool) : List TickRes → List TermEvent × Except Nat Unit
  | [] => ([], Except.ok ())
  | TickRes.fail err :: _ => ([], Except.error err)
  | TickRes.ok w h :: rest =>
    (TermEvent.rendered (tick e w h).2 :: (runLoop (tick e w h).1 rest).1,
      (runLoop (tick e w h).1 rest).2)

/-- `print_in_box` seen through its terminal trace.  `cursor::Hide` /
`cursor::SavePosition` may fail with `?`-propagation (src/ui.rs:218-221,
`hideResult`); then `crossterm::terminal::size().unwrap()`
(src/ui.rs:222) is called, whose failure panics — the outer `none` —
rather than becoming an error value; then the loop runs.
`StdoutContainer`'s `Drop` runs `final_cleanup_for_terminal`
(`cursor::Show`, src/ui.rs:193-201) on every returning exit path, which
the model appends unconditionally. -/
def play (hideResult : Option Nat) (sizeQuery : Except Nat (Nat × Nat))
    (ticks : List TickRes) : Option (List TermEvent × Except Nat Unit) :=
  match hideResult with
  | some err => some ([TermEvent.showCursor], Except.error err)
  | none =>
    match sizeQuery with
    | Except.error _ => none
    | Except.ok _ =>
      some (TermEvent.hideCursor ::
          (runLoop false ticks).1 ++ [TermEvent.showCursor],
        (runLoop false ticks).2)

/-- The cursor drop distance after the loop (src/ui.rs:322-325). -/
def finalDy (w h : Nat) : Nat := if undersized w h then 2 else BOX_HEIGHT

/-- The `(w, h)` in scope after the loop is the size in effect at the
final tick (or the initial size when no tick ran). -/
def playbackFinalDy (w0 h0 : Nat) (sizes : List (Nat × Nat)) : Nat :=
  finalDy (sizes.getLast?.getD (w0, h0)).1 (sizes.getLast?.getD (w0, h0)).2

/-- `Duration::from_millis(1000 / fps.unwrap_or(60) as u64)`
(src/ui.rs:318); `none` models the division-by-zero panic. -/
def sleep_millis (fps : Option Nat) : Option Nat :=
  if fps.getD 60 = 0 then none else some (1000 / fps.getD 60)

/-! helper lemmas about `List.getD` over `replicate`/append shapes -/

theorem getD_append_left {α : Type} (l1 l2 : List α) (j : Nat) (d : α)
    (h : j < l1.length) : (l1 ++ l2).getD j d = l1.getD j d := by
  induction l1 generalizing j with
  | nil => simp at h
  | cons a t ih =>
    cases j with
    | zero => rfl
    | succ k =>
      simp only [List.cons_append, List.getD_cons_succ]
      exact ih k (by simpa using h)

theorem getD_append_off {α : Type} (l1 l2 : List α) (j : Nat) (d : α) :
    (l1 ++ l2).getD (l1.length + j) d = l2.getD j d := by
  induction l1 with
  | nil => simp
  | cons a t ih =>
    simpa [List.cons_append, Nat.succ_add, List.getD_cons_succ] using ih

theorem getD_replicate {α : Type} (n j : Nat) (a d : α) (h : j < n) :
    (List.replicate n a).getD j d = a := by
  induction n generalizing j with
  | zero => simp at h
  | succ m ih =>
    cases j with
    | zero => rfl
    | succ k =>
      simp only [List.replicate_succ, List.getD_cons_succ]
      exact ih k (by omega)

theorem getD_range_map {α : Type} (f : Nat → α) (n j : Nat) (d : α)
    (h : j < n) : ((List.range n).map f).getD j d = f j := by
  have h1 : j < ((List.range n).map f).length := by simpa using h
  rw [List.getD_eq_getElem _ _ h1]
  simp

theorem getD_map_getD {α : Type} (image : List (List α)) (i : Nat)
    (f : List α → List α) (h : i < image.length) :
    ((image.map f).getD i []) = f (image.getD i []) := by
  have h1 : i < (image.map f).length := by simpa using h
  rw [List.getD_eq_getElem _ _ h1, List.getD_eq_getElem _ _ h,
    List.getElem_map]

theorem utf8Len_append (a b : List Char) :
    utf8Len (a ++ b) = utf8Len a + utf8Len b := by
  simp [utf8Len]

theorem utf8Len_replicate (n : Nat) (c : Char) :
    utf8Len (List.replicate n c) = n * c.utf8Size := by
  induction n with
  | zero => simp [utf8Len]
  | succ m ih =>
    simp only [List.replicate_succ, utf8Len, List.map_cons, List.sum_cons]
    simp only [utf8Len] at ih
    rw [ih]
    ring

theorem utf8Len_le_maxRowLen (lines : List (List Char)) (l : List Char)
    (h : l ∈ lines) : utf8Len l ≤ maxRowLen lines := by
  induction lines with
  | nil => simp at h
  | cons a t ih =>
    rcases List.mem_cons.mp h with h1 | h1
    · subst h1; exact Nat.le_max_left _ _
    · exact Nat.le_trans (ih h1) (Nat.le_max_right _ _)

theorem getD_le_maxRowLen (lines : List (List Char)) (i : Nat)
    (h : i < lines.length) : utf8Len (lines.getD i []) ≤ maxRowLen lines := by
  apply utf8Len_le_maxRowLen
  rw [List.getD_eq_getElem _ _ h]
  exact List.getElem_mem h

theorem getD_append_off_eq {α : Type} (l1 l2 : List α) (p j : Nat) (d : α)
    (hp : l1.length = p) : (l1 ++ l2).getD (p + j) d = l2.getD j d := by
  subst hp; exact getD_append_off l1 l2 j d

/-- Cell in the left padding zone of `rep ++ mid ++ rep`. -/
theorem zones_left {α : Type} (p r : Nat) (a d : α) (mid : List α) (j : Nat)
    (hj : j < p) :
    (List.replicate p a ++ mid ++ List.replicate r a).getD j d = a := by
  rw [List.append_assoc,
    getD_append_left _ _ _ _ (by simpa using hj),
    getD_replicate _ _ _ _ hj]

/-- Cell in the middle zone of `rep ++ mid ++ rep`. -/
theorem zones_mid {α : Type} (p r : Nat) (a d : α) (mid : List α) (j : Nat)
    (hj : j < mid.length) :
    (List.replicate p a ++ mid ++ List.replicate r a).getD (p + j) d =
      mid.getD j d := by
  rw [List.append_assoc,
    getD_append_off_eq _ _ _ _ _ (List.length_replicate p a),
    getD_append_left _ _ _ _ hj]

/-- Cell in the right padding zone of `rep ++ mid ++ rep`. -/
theorem zones_right {α : Type} (p r : Nat) (a d : α) (mid : List α) (j : Nat)
    (h1 : p + mid.length ≤ j) (h2 : j < p + mid.length + r) :
    (List.replicate p a ++ mid ++ List.replicate r a).getD j d = a := by
  have hj : j = p + (mid.length + (j - p - mid.length)) := by omega
  rw [hj, List.append_assoc,
    getD_append_off_eq _ _ _ _ _ (List.length_replicate p a),
    getD_append_off_eq _ _ _ _ _ rfl,
    getD_replicate _ _ _ _ (by omega)]

/-- With a single-byte fill character (the default space) the padded
face row is exactly `w` bytes long. -/
theorem utf8Len_padFaceRow (fill : Char) (w : Nat) (line : List Char)
    (h : utf8Len line ≤ w) (hfill : fill.utf8Size = 1) :
    utf8Len (padFaceRow fill w line) = w := by
  simp only [padFaceRow, utf8Len_append, utf8Len_replicate, hfill, leftPad]
  omega

/-- Under `lineLen ≤ w` the `resize` in the colour row only extends, so
the colour row has the same three-zone shape as the face row. -/
theorem padColourRow_eq (dflt : List Char) (w lineLen : Nat)
    (crow : List (List Char)) (h : lineLen ≤ w) :
    padColourRow dflt w lineLen crow =
      List.replicate (leftPad w lineLen) dflt ++
        (List.range lineLen).map (fun j => crow.getD j dflt) ++
        List.replicate (w - lineLen - leftPad w lineLen) dflt := by
  have hpad : leftPad w lineLen ≤ w - lineLen := Nat.div_le_self _ _
  have hlen : (List.replicate (leftPad w lineLen) dflt ++
      (List.range lineLen).map (fun j => crow.getD j dflt)).length =
      leftPad w lineLen + lineLen := by simp
  simp only [padColourRow, vecResize]
  rw [List.take_of_length_le (by rw [hlen]; omega), hlen]
  congr 2
  omega

theorem padColourRow_length (dflt : List Char) (w lineLen : Nat)
    (crow : List (List Char)) : (padColourRow dflt w lineLen crow).length = w := by
  simp only [padColourRow, vecResize, List.length_append, List.length_take,
    List.length_replicate]
  omega

/-- C1: `pad_image_and_colours` returns width = the maximum row length
(`str::len()`, i.e. UTF-8 bytes) and height = the number of rows; every
output colour row is exactly `width` cells long and, for a single-byte
fill character (the default space), every output text row is exactly
`width` bytes long; each row is padded with left pad
`(width - row_length)/2` fill characters, the odd remainder going to
the right; the colour row is padded identically, the default tag
filling the `pad` padding cells, the cells beyond the supplied colour
row's length, and the resize tail; and every original character and
supplied colour tag appears unchanged at its left-pad-shifted
position. -/
theorem pad_image_and_colours_ok
    (image : List (List Char)) (colours : List (List (List Char)))
    (pc : Option Char) (dc : Option (List Char))
    (pf : List (List Char)) (pcl : List (List (List Char))) (w ht : Nat)
    (heq : pad_image_and_colours image colours pc dc = (pf, pcl, w, ht))
    (i : Nat) (hi : i < image.length)
    (row : List Char) (hr : row = image.getD i [])
    (crow : List (List Char)) (hc : crow = colours.getD i []) :
    w = maxRowLen image ∧
    ht = image.length ∧
    ((pc.getD ' ').utf8Size = 1 → utf8Len (pf.getD i []) = w) ∧
    (pcl.getD i []).length = w ∧
    leftPad w (utf8Len row) ≤ (w - utf8Len row) - leftPad w (utf8Len row) ∧
    (∀ j, j < leftPad w (utf8Len row) →
      (pf.getD i []).getD j (pc.getD ' ') = pc.getD ' ') ∧
    (∀ j, j < row.length →
      (pf.getD i []).getD (leftPad w (utf8Len row) + j) (pc.getD ' ') =
        row.getD j (pc.getD ' ')) ∧
    (∀ j, j < w - utf8Len row - leftPad w (utf8Len row) →
      (pf.getD i []).getD (leftPad w (utf8Len row) + row.length + j)
        (pc.getD ' ') = pc.getD ' ') ∧
    (∀ j, j < leftPad w (utf8Len row) →
      (pcl.getD i []).getD j (dc.getD []) = dc.getD []) ∧
    (∀ j, j < utf8Len row →
      (pcl.getD i []).getD (leftPad w (utf8Len row) + j) (dc.getD []) =
        crow.getD j (dc.getD [])) ∧
    (∀ j, leftPad w (utf8Len row) + utf8Len row ≤ j → j < w →
      (pcl.getD i []).getD j (dc.getD []) = dc.getD []) := by
  simp only [pad_image_and_colours, Prod.mk.injEq] at heq
  obtain ⟨hpf, ⟨hpcl, ⟨hw, hht⟩⟩⟩ := heq
  subst hpf hpcl hw hht hr hc
  have hwle : utf8Len (image.getD i []) ≤ maxRowLen image :=
    getD_le_maxRowLen image i hi
  have hpadle : leftPad (maxRowLen image) (utf8Len (image.getD i [])) ≤
      maxRowLen image - utf8Len (image.getD i []) := Nat.div_le_self _ _
  have hface := getD_map_getD image i
    (padFaceRow (pc.getD ' ') (maxRowLen image)) hi
  have hcol := getD_range_map
    (fun k => padColourRow (dc.getD []) (maxRowLen image)
      (utf8Len (image.getD k [])) (colours.getD k []))
    image.length i ([] : List (List Char)) hi
  refine ⟨rfl, rfl, ?_, ?_, ?_, ?_, ?_, ?_, ?_, ?_, ?_⟩
  · intro hfs
    rw [hface]
    exact utf8Len_padFaceRow _ _ _ hwle hfs
  · rw [hcol]; exact padColourRow_length _ _ _ _
  · simp only [leftPad]; omega
  · intro j hj
    rw [hface]
    simp only [padFaceRow]
    exact zones_left _ _ _ _ _ _ hj
  · intro j hj
    rw [hface]
    simp only [padFaceRow]
    exact zones_mid _ _ _ _ _ _ hj
  · intro j hj
    rw [hface]
    simp only [padFaceRow]
    apply zones_right <;> omega
  · intro j hj
    rw [hcol]; simp only []
    rw [padColourRow_eq _ _ _ _ hwle]
    exact zones_left _ _ _ _ _ _ hj
  · intro j hj
    rw [hcol]; simp only []
    rw [padColourRow_eq _ _ _ _ hwle]
    have := zones_mid (leftPad (maxRowLen image) (utf8Len (image.getD i [])))
      (maxRowLen image - utf8Len (image.getD i []) -
        leftPad (maxRowLen image) (utf8Len (image.getD i [])))
      (dc.getD []) (dc.getD [])
      ((List.range (utf8Len (image.getD i []))).map
        (fun j => (colours.getD i []).getD j (dc.getD []))) j
      (by simpa using hj)
    rw [this, getD_range_map _ _ _ _ hj]
  · intro j hj1 hj2
    rw [hcol]; simp only []
    rw [padColourRow_eq _ _ _ _ hwle]
    apply zones_right
    · simpa using hj1
    · simp only [leftPad, List.length_map, List.length_range] at hpadle ⊢
      omega

/-- C3: the claim says colourizing never raises an error or panics for
any character and colour tag.  The code violates it: slicing
`&hex[1..3]` of the 7-byte tag `"#aé000"` falls inside the two-byte
character `é` and panics.  The other behaviours the claim lists do
hold: a well-formed 7-character hex tag yields the RGB-styled
character, and the empty tag or an ASCII-malformed tag silently yields
the plain character. -/
theorem styled_glyph_panics_on_multibyte_tag :
    styled_glyph 'x' ['#', 'a', 'é', '0', '0', '0'] = none ∧
    styled_glyph 'x' ['#', '1', 'a', '2', 'b', '3', 'c'] =
      some ('x', some (26, 43, 60)) ∧
    styled_glyph 'x' [] = some ('x', none) ∧
    styled_glyph 'x' ['#', 'z', 'z', 'z', 'z', 'z', 'z'] = some ('x', none) := by
  refine ⟨by decide, by decide, by decide, by decide⟩

/-- C10: for every `fps ≥ 1` the per-tick sleep is `1000 / fps`
milliseconds (integer division), which is `0` when `fps > 1000`; with no
`fps` supplied the default is `60`; `fps = 0` divides by zero and
panics. -/
theorem sleep_millis_ok (fps : Nat) (h : 1 ≤ fps) :
    sleep_millis (some fps) = some (1000 / fps) ∧
    (1000 < fps → sleep_millis (some fps) = some 0) ∧
    sleep_millis none = some (1000 / 60) ∧
    sleep_millis (some 0) = none := by
  have hne : fps ≠ 0 := by omega
  refine ⟨by simp [sleep_millis, hne], ?_, by decide, by decide⟩
  intro hgt
  simp [sleep_millis, hne, Nat.div_eq_of_lt hgt]

/-- Witness for C10 at `fps = 2000`. -/
theorem sleep_millis_ok_witness :
    1 ≤ 2000 ∧ sleep_millis (some 2000) = some 0 :=
  ⟨by decide, (sleep_millis_ok 2000 (by decide)).2.1 (by decide)⟩

/-- C9: with empty `windows` the total-frame computation
`windows.last().unwrap()` panics (modelled as `none`) instead of
returning an error value; for every non-empty `windows` the `unwrap`
succeeds. -/
theorem animation_total_frames_ok (a : Animation) :
    (a.windows = [] → animation_total_frames a = none) ∧
    (a.windows ≠ [] → ∃ n, animation_total_frames a = some n) := by
  constructor
  · intro h; simp [animation_total_frames, h]
  · intro h
    obtain ⟨w, hw⟩ := Option.isSome_iff_exists.mp (List.getLast?_isSome.mpr h)
    exact ⟨w.end_frame_inclusive + 1, by simp [animation_total_frames, hw]⟩

/-- Witness for C9: the panic at the empty-windows animation and the
success at a one-window animation. -/
theorem animation_total_frames_ok_witness :
    animation_total_frames ⟨[], 30⟩ = none ∧
    ∃ n, animation_total_frames ⟨[⟨0, 4, [], [], 0, 0⟩], 30⟩ = some n :=
  ⟨(animation_total_frames_ok ⟨[], 30⟩).1 rfl,
   (animation_total_frames_ok ⟨[⟨0, 4, [], [], 0, 0⟩], 30⟩).2 (by decide)⟩

theorem inArea_iff (a : ImageDrawnArea) (x y : Nat) :
    inArea a x y = true ↔
      a.start_x ≤ x ∧ x < a.start_x + a.width ∧
      a.start_y ≤ y ∧ y < a.start_y + a.height := by
  simp [inArea]
  tauto

theorem outsideArea_iff (a : ImageDrawnArea) (x y : Nat) :
    outsideArea a x y = true ↔
      x < a.start_x ∨ a.start_x + a.width ≤ x ∨
      y < a.start_y ∨ a.start_y + a.height ≤ y := by
  simp [outsideArea]
  tauto

theorem mem_areasToClear (older curr : ImageDrawnArea) (x y : Nat) :
    (x, y) ∈ areasToClear older curr ↔
      inArea older x y = true ∧ inArea curr x y = false := by
  rw [← Bool.not_eq_true (inArea curr x y), inArea_iff, inArea_iff]
  simp only [areasToClear, List.mem_flatMap, List.mem_map, List.mem_range,
    List.mem_filterMap, Option.ite_none_right_eq_some, Option.some.injEq,
    Prod.mk.injEq]
  constructor
  · rintro ⟨y0, ⟨dy, hdy, rfl⟩, x0, ⟨dx, hdx, rfl⟩, hout, rfl, rfl⟩
    rw [outsideArea_iff] at hout
    omega
  · rintro ⟨hin, hout⟩
    refine ⟨y, ⟨y - older.start_y, by omega, by omega⟩,
      x, ⟨x - older.start_x, by omega, by omega⟩, ?_, rfl, rfl⟩
    rw [outsideArea_iff]
    omega

/-- C2: the set of cells the erase pass blanks is exactly the previous
`ImageDrawnArea` rectangle minus the current one; identical rectangles
produce an empty erase set; on the very first drawn frame
(`older_image_drawn_area = None`) no erase pass runs. -/
theorem erase_is_set_difference (older curr : ImageDrawnArea) (x y : Nat) :
    ((x, y) ∈ eraseStep (some older) curr ↔
      inArea older x y = true ∧ inArea curr x y = false) ∧
    eraseStep (some curr) curr = [] ∧
    eraseStep none curr = [] := by
  refine ⟨mem_areasToClear older curr x y, ?_, rfl⟩
  rw [List.eq_nil_iff_forall_not_mem]
  rintro ⟨px, py⟩ hp
  obtain ⟨h1, h2⟩ := (mem_areasToClear curr curr px py).mp hp
  rw [h1] at h2
  exact Bool.noConfusion h2

theorem saturatingAddSigned_eq_clamp (a : Nat) (d : Int) :
    ((saturatingAddSigned a d : Nat) : Int) = clampU16 ((a : Int) + d) := by
  have h0 : (0 : Int) ≤ min (max ((a : Int) + d) 0) 65535 :=
    le_min (le_max_right _ _) (by norm_num)
  simp only [saturatingAddSigned, clampU16]
  rw [Int.toNat_of_nonneg h0]

theorem natCast_sub_eq_max (a b : Nat) :
    ((a - b : Nat) : Int) = max ((a : Int) - (b : Int)) 0 := by
  omega

/-- C5 counterexample: the draw-origin computation is not total
saturating arithmetic.  At box position `65531` (with the fixed box
height `10`) the unchecked `u16` addition `curr_cursor_y +
box_height / 2` overflows, a panic in debug builds (modelled `none`);
and for a composited frame `65536` cells wide the `usize as u16` cast
truncates to `0`, producing origin `22` where the claimed clamped
formula gives `0`. -/
theorem start_origin_not_always_saturating :
    compute_start_y 65531 10 8 0 = none ∧
    compute_start_x 45 65536 0 = 22 ∧
    spec_start_x 45 65536 0 = 0 := by
  refine ⟨by decide, by decide, by decide⟩

/-- C5 amended: for frame dimensions at most `65535` (so the
`usize as u16` cast is lossless) and a box position with
`box_top + box_height/2 ≤ 65535` (so the one unchecked `u16` addition
cannot overflow), the draw origin is exactly the spec's formula
`box/2 − frame/2 + delta` computed with per-operation saturating
arithmetic, clamped to the `u16` range `[0, 65535]` instead of
underflowing or wrapping, and the `start_y` computation does not
panic. -/
theorem start_origin_saturating
    (box_width frame_width : Nat) (dx : Int)
    (box_top box_height frame_height : Nat) (dy : Int)
    (hfw : frame_width ≤ 65535) (hfh : frame_height ≤ 65535)
    (hbt : box_top + box_height / 2 ≤ 65535) :
    ((compute_start_x box_width frame_width dx : Nat) : Int) =
      spec_start_x box_width frame_width dx ∧
    compute_start_x box_width frame_width dx ≤ 65535 ∧
    ∃ v, compute_start_y box_top box_height frame_height dy = some v ∧
      (v : Int) = spec_start_y box_top box_height frame_height dy ∧
      v ≤ 65535 := by
  have hcx : castU16 frame_width = frame_width := Nat.mod_eq_of_lt (by omega)
  have hcy : castU16 frame_height = frame_height := Nat.mod_eq_of_lt (by omega)
  refine ⟨?_, ?_, ?_⟩
  · rw [compute_start_x, hcx, saturatingAddSigned_eq_clamp, spec_start_x]
    congr 1
    rw [natCast_sub_eq_max]
    congr 2
  · simp only [compute_start_x, saturatingAddSigned]
    omega
  · refine ⟨saturatingAddSigned
      (box_top + box_height / 2 - castU16 frame_height / 2) dy, ?_, ?_, ?_⟩
    · rw [compute_start_y, if_pos hbt]
    · rw [saturatingAddSigned_eq_clamp, spec_start_y, hcy]
      congr 1
      rw [natCast_sub_eq_max]
      congr 2
    · simp only [saturatingAddSigned]
      omega

/-- Witness for the amended C5 at a small concrete configuration. -/
theorem start_origin_saturating_witness :
    (3 : Nat) ≤ 65535 ∧ (2 : Nat) ≤ 65535 ∧ (7 : Nat) + 10 / 2 ≤ 65535 ∧
    ((compute_start_x 45 3 2 : Nat) : Int) = spec_start_x 45 3 2 := by
  exact ⟨by decide, by decide, by decide,
    (start_origin_saturating 45 3 2 7 10 2 (-1) (by decide) (by decide)
      (by decide)).1⟩

theorem tick_fst (e : Bool) (w h : Nat) : (tick e w h).1 = undersized w h := by
  cases hu : undersized w h <;> simp [tick, hu]

/-- The output of tick `i` is the `tick` step applied to the flag that
entered it, and that flag is `false` for tick `0` and "previous tick was
undersized" afterwards. -/
theorem runTicks_getD (sizes : List (Nat × Nat)) :
    ∀ (e : Bool) (i : Nat), i < sizes.length →
    (runTicks e sizes).getD i ⟨false, false⟩ =
      (tick (if i = 0 then e
             else undersized (sizes.getD (i - 1) (0, 0)).1
                    (sizes.getD (i - 1) (0, 0)).2)
        (sizes.getD i (0, 0)).1 (sizes.getD i (0, 0)).2).2 := by
  induction sizes with
  | nil => intro e i hi; simp at hi
  | cons s rest ih =>
    intro e i hi
    cases i with
    | zero => simp [runTicks]
    | succ j =>
      have hj : j < rest.length := by simpa using hi
      have hrec := ih (tick e s.1 s.2).1 j hj
      simp only [runTicks, List.getD_cons_succ]
      rw [hrec]
      cases j with
      | zero => simp [tick_fst]
      | succ k => simp

/-- C6: at every undersized tick nothing is drawn and the size-error
line is printed exactly at the first tick of each contiguous undersized
run (tick `0`, or a tick whose predecessor fit); at every fitting tick
the box is drawn and no error is printed, so rendering resumes
immediately and a later undersized run prints the message once again. -/
theorem size_error_printed_once_per_run (sizes : List (Nat × Nat)) (i : Nat)
    (hi : i < sizes.length) :
    (undersized (sizes.getD i (0, 0)).1 (sizes.getD i (0, 0)).2 = true →
      ((runTicks false sizes).getD i ⟨false, false⟩).drewBox = false ∧
      (((runTicks false sizes).getD i ⟨false, false⟩).printedError = true ↔
        (i = 0 ∨ undersized (sizes.getD (i - 1) (0, 0)).1
                    (sizes.getD (i - 1) (0, 0)).2 = false))) ∧
    (undersized (sizes.getD i (0, 0)).1 (sizes.getD i (0, 0)).2 = false →
      ((runTicks false sizes).getD i ⟨false, false⟩).drewBox = true ∧
      ((runTicks false sizes).getD i ⟨false, false⟩).printedError = false) := by
  rw [runTicks_getD sizes false i hi]
  constructor
  · intro hu
    by_cases h0 : i = 0
    · subst h0
      simp only [tick]
      rw [if_pos hu]
      simp
    · simp only [tick, if_neg h0]
      rw [if_pos hu]
      cases hp : undersized (sizes.getD (i - 1) (0, 0)).1
          (sizes.getD (i - 1) (0, 0)).2 <;> simp [h0]
  · intro hu
    have hu2 : ¬ (undersized (sizes.getD i (0, 0)).1
        (sizes.getD i (0, 0)).2 = true) := by rw [hu]; decide
    by_cases h0 : i = 0
    · subst h0
      simp only [tick]
      rw [if_neg hu2]
      simp
    · simp only [tick, if_neg h0]
      rw [if_neg hu2]
      simp

/-- Witness for C6: sizes `[(80,24),(30,5),(30,5)]`; the third tick is
undersized but continues a run, so the message is not reprinted. -/
theorem size_error_once_witness :
    ((runTicks false [(80, 24), (30, 5), (30, 5)]).getD 2
        ⟨false, false⟩).drewBox = false ∧
    (((runTicks false [(80, 24), (30, 5), (30, 5)]).getD 2
        ⟨false, false⟩).printedError = true ↔
      (2 = 0 ∨ undersized 30 5 = false)) :=
  (size_error_printed_once_per_run [(80, 24), (30, 5), (30, 5)] 2
    (by decide)).1 (by decide)

theorem runLoop_fail (err : Nat) (post : List TickRes) :
    ∀ (sizes : List (Nat × Nat)) (e : Bool),
    runLoop e
        (sizes.map (fun s => TickRes.ok s.1 s.2) ++ TickRes.fail err :: post) =
      ((runTicks e sizes).map TermEvent.rendered, Except.error err) := by
  intro sizes
  induction sizes with
  | nil => intro e; rfl
  | cons s rest ih =>
    intro e
    simp only [List.map_cons, List.cons_append, runLoop, runTicks,
      List.append_eq, ih]

/-- C7 counterexample: the claim lists the terminal size query among
the I/O operations whose failure play surfaces to the caller as a
single error value, but `crossterm::terminal::size().unwrap()`
(src/ui.rs:222) panics when the query fails (the model's outer
`none`) — no error value is ever returned from that path. -/
theorem size_query_failure_panics :
    play none (Except.error 5) [] = none := rfl

/-- C7 amended: when the first failing operation is any of the
`?`-propagated ones (cursor moves, writes, flush, event poll/read —
every per-tick operation, and the pre-loop hide/save), the loop aborts
there: the trace contains the events of the successful prefix only
(nothing is retried, nothing after the failure runs), the result is
that single error value, and the `Drop`-driven `cursor::Show` cleanup
still appears at the end of the trace; likewise when hiding the cursor
fails before the loop.  Only the terminal size query is unwrapped and
panics instead. -/
theorem play_aborts_on_first_failure (w0 h0 : Nat) (sq : Except Nat (Nat × Nat))
    (sizes : List (Nat × Nat)) (err : Nat) (post : List TickRes) :
    play none (Except.ok (w0, h0))
        (sizes.map (fun s => TickRes.ok s.1 s.2) ++ TickRes.fail err :: post) =
      some (TermEvent.hideCursor ::
        ((runTicks false sizes).map TermEvent.rendered ++
          [TermEvent.showCursor]),
        Except.error err) ∧
    play (some err) sq (sizes.map (fun s => TickRes.ok s.1 s.2)) =
      some ([TermEvent.showCursor], Except.error err) := by
  refine ⟨?_, rfl⟩
  simp [play, runLoop_fail]

theorem runTicks_last_drewBox (w h : Nat) :
    ∀ (pre : List (Nat × Nat)) (e : Bool) (d : TickOutput),
    ((runTicks e (pre ++ [(w, h)])).getLastD d).drewBox = !undersized w h := by
  intro pre
  induction pre with
  | nil =>
    intro e d
    cases hu : undersized w h <;> simp [runTicks, tick, hu]
  | cons s rest ih =>
    intro e d
    simp only [List.cons_append, runTicks, List.getLastD_cons]
    exact ih _ _

/-- C8: after the loop, the cursor is moved down by the full box height
(`10`) exactly when the terminal size in effect at the final tick fits
(and then the box was drawn at that tick), and by `2` rows when the
final tick was undersized (and then the size-error display was active,
no box drawn). -/
theorem final_cursor_move (w0 h0 w h : Nat) (pre : List (Nat × Nat)) :
    (undersized w h = false →
      ((runTicks false (pre ++ [(w, h)])).getLastD ⟨false, false⟩).drewBox =
        true ∧
      playbackFinalDy w0 h0 (pre ++ [(w, h)]) = 10) ∧
    (undersized w h = true →
      ((runTicks false (pre ++ [(w, h)])).getLastD ⟨false, false⟩).drewBox =
        false ∧
      playbackFinalDy w0 h0 (pre ++ [(w, h)]) = 2) := by
  have hlast : (pre ++ [(w, h)]).getLast? = some (w, h) :=
    List.getLast?_concat _
  constructor
  · intro hu
    refine ⟨?_, ?_⟩
    · rw [runTicks_last_drewBox w h pre false _, hu]; decide
    · simp [playbackFinalDy, hlast, finalDy, hu, BOX_HEIGHT]
  · intro hu
    refine ⟨?_, ?_⟩
    · rw [runTicks_last_drewBox w h pre false _, hu]; decide
    · simp [playbackFinalDy, hlast, finalDy, hu]

/-- Witness for C8: one undersized tick followed by a fitting final
tick moves the cursor down by the full box height. -/
theorem final_cursor_move_witness :
    undersized 80 24 = false ∧
    playbackFinalDy 80 24 ([(30, 5)] ++ [(80, 24)]) = 10 :=
  ⟨by decide,
    ((final_cursor_move 80 24 80 24 [(30, 5)]).1 (by decide)).2⟩

theorem contiguousB_head_le (w : AnimationWindow) (t : List AnimationWindow)
    (h : contiguousB (w :: t) = true) :
    w.start_frame_inclusive ≤ w.end_frame_inclusive := by
  cases t with
  | nil => simpa [contiguousB] using h
  | cons w2 rest =>
    simp only [contiguousB, Bool.and_eq_true, decide_eq_true_eq] at h
    exact h.1.1

theorem contiguousB_abut (w w2 : AnimationWindow) (t : List AnimationWindow)
    (h : contiguousB (w :: w2 :: t) = true) :
    w.end_frame_inclusive + 1 = w2.start_frame_inclusive := by
  simp only [contiguousB, Bool.and_eq_true, decide_eq_true_eq] at h
  exact h.1.2

theorem contiguousB_tail (w w2 : AnimationWindow) (t : List AnimationWindow)
    (h : contiguousB (w :: w2 :: t) = true) : contiguousB (w2 :: t) = true := by
  simp only [contiguousB, Bool.and_eq_true, decide_eq_true_eq] at h
  exact h.2

/-- Every window after the head starts strictly after the head ends. -/
theorem contiguousB_later (w : AnimationWindow) :
    ∀ (t : List AnimationWindow), contiguousB (w :: t) = true →
    ∀ w2 ∈ t, w.end_frame_inclusive < w2.start_frame_inclusive := by
  intro t
  induction t generalizing w with
  | nil => intro _ w2 hw2; simp at hw2
  | cons wa rest ih =>
    intro h w2 hw2
    rcases List.mem_cons.mp hw2 with rfl | hmem
    · have := contiguousB_abut w w2 rest h
      omega
    · have htail := contiguousB_tail w wa rest h
      have h2 := ih wa htail w2 hmem
      have h3 := contiguousB_abut w wa rest h
      have h4 := contiguousB_head_le wa rest htail
      omega

/-- Under the contiguity invariant, the scan starting anywhere at or
after the head start and at or before the last end finds the unique
matching window. -/
theorem findWindow_covers :
    ∀ (ws : List AnimationWindow) (f : Nat), contiguousB ws = true →
    ∀ (hne : ws ≠ []),
    (ws.head hne).start_frame_inclusive ≤ f →
    f ≤ (ws.getLast hne).end_frame_inclusive →
    ∃ w, findWindow ws f = some w ∧ w ∈ ws ∧ window_matches f w = true ∧
      ∀ w2 ∈ ws, window_matches f w2 = true → w2 = w := by
  intro ws
  induction ws with
  | nil => intro f _ hne; exact absurd rfl hne
  | cons w t ih =>
    intro f hc hne hlo hhi
    by_cases hf : f ≤ w.end_frame_inclusive
    · have hm : window_matches f w = true := by
        simp only [window_matches, Bool.and_eq_true, decide_eq_true_eq]
        exact ⟨hlo, hf⟩
      refine ⟨w, ?_, List.mem_cons_self w t, hm, ?_⟩
      · simp [findWindow, List.find?_cons_of_pos _ hm]
      · intro w2 hw2 hm2
        rcases List.mem_cons.mp hw2 with rfl | hmem
        · rfl
        · exfalso
          have hlt := contiguousB_later w t hc w2 hmem
          simp only [window_matches, Bool.and_eq_true, decide_eq_true_eq] at hm2
          omega
    · have hm : ¬ window_matches f w = true := by
        simp only [window_matches, Bool.and_eq_true, decide_eq_true_eq]
        intro hx
        exact hf hx.2
      cases t with
      | nil => exact absurd hhi hf
      | cons w2 rest =>
        have htail := contiguousB_tail w w2 rest hc
        have habut := contiguousB_abut w w2 rest hc
        have hne2 : w2 :: rest ≠ [] := List.cons_ne_nil w2 rest
        have hlo2 : ((w2 :: rest).head hne2).start_frame_inclusive ≤ f := by
          simp only [List.head_cons]
          omega
        have hhi2 : f ≤ ((w2 :: rest).getLast hne2).end_frame_inclusive := by
          have hg : (w :: w2 :: rest).getLast hne =
              (w2 :: rest).getLast hne2 := List.getLast_cons hne2
          rw [hg] at hhi
          exact hhi
        obtain ⟨wf, hfind, hmem, hmatch, huniq⟩ := ih f htail hne2 hlo2 hhi2
        refine ⟨wf, ?_, List.mem_cons_of_mem _ hmem, hmatch, ?_⟩
        · simp only [findWindow] at hfind ⊢
          rw [List.find?_cons_of_neg _ hm]
          exact hfind
        · intro w2x hw2x hm2
          rcases List.mem_cons.mp hw2x with rfl | hmem2
          · exact absurd hm2 hm
          · exact huniq w2x hmem2 hm2

/-- C4: for every Animation whose windows satisfy the
contiguous-coverage invariant and start at frame 0, the total frame
count is the last window's `end_frame_inclusive + 1`, and every frame
index below it is contained in exactly one window, which the player's
linear scan selects (so the no-window-matched asserts at src/ui.rs:69-70
are unreachable). -/
theorem window_coverage (a : Animation) (f N : Nat) (hne : a.windows ≠ [])
    (hcont : contiguousB a.windows = true)
    (hfirst : (a.windows.head hne).start_frame_inclusive = 0)
    (hN : animation_total_frames a = some N) (hf : f < N) :
    N = (a.windows.getLast hne).end_frame_inclusive + 1 ∧
    ∃ w, findWindow a.windows f = some w ∧ w ∈ a.windows ∧
      window_matches f w = true ∧
      ∀ w2 ∈ a.windows, window_matches f w2 = true → w2 = w := by
  have hlast : a.windows.getLast? = some (a.windows.getLast hne) :=
    List.getLast?_eq_getLast _ hne
  have hNe : N = (a.windows.getLast hne).end_frame_inclusive + 1 := by
    rw [animation_total_frames, hlast] at hN
    simp only [Option.map_some', Option.some.injEq] at hN
    omega
  refine ⟨hNe, findWindow_covers a.windows f hcont hne ?_ ?_⟩
  · rw [hfirst]; exact Nat.zero_le f
  · omega

/-- Witness for C4 at the two-window animation of §8 of the spec
(frames 0-9 and 10-19), frame 10. -/
theorem window_coverage_witness :
    ∃ w, findWindow
        [(⟨0, 9, [], [], 0, 0⟩ : AnimationWindow), ⟨10, 19, [], [], 0, -2⟩]
        10 = some w ∧
      w ∈ [(⟨0, 9, [], [], 0, 0⟩ : AnimationWindow), ⟨10, 19, [], [], 0, -2⟩] ∧
      window_matches 10 w = true ∧
      ∀ w2 ∈ [(⟨0, 9, [], [], 0, 0⟩ : AnimationWindow),
          ⟨10, 19, [], [], 0, -2⟩],
        window_matches 10 w2 = true → w2 = w :=
  (window_coverage
    ⟨[⟨0, 9, [], [], 0, 0⟩, ⟨10, 19, [], [], 0, -2⟩], 10⟩ 10 20
    (by decide) (by decide) (by decide) (by decide) (by decide)).2

/-- Witness for C1 at a concrete ragged image and short colour grid. -/
theorem pad_image_and_colours_ok_witness :
    ([[' ', 'x', ' ']] : List (List Char)).getD 0 [] = [' ', 'x', ' '] ∧
    (([['a', 'b', 'c'], [' ', 'x', ' ']] : List (List Char)).getD 1 []).getD
      (leftPad 3 (utf8Len ['x']) + 0) ' ' = (['x'] : List Char).getD 0 ' ' := by
  have h := pad_image_and_colours_ok [['a', 'b', 'c'], ['x']]
    [[['#', 'f', 'f', '0', '0', '0', '0']]] none none
    [['a', 'b', 'c'], [' ', 'x', ' ']]
    [[['#', 'f', 'f', '0', '0', '0', '0'], [], []], [[], [], []]] 3 2
    (by decide) 1 (by decide)
    ['x'] (by decide) [] (by decide)
  exact ⟨by decide, h.2.2.2.2.2.2.1 0 (by decide)⟩

end BitPet
